import Mathlib

/-!
Shallow embedding of `dupe-linker.py`: a file-deduplication tool that hashes
files with SHA-256, stores one record per digest in a SQLite table with a
UNIQUE constraint on the digest column, and replaces duplicate files with
symbolic links to the first-recorded path.

Bytes are modelled as `List Nat` (each entry < 256), machine 32-bit words as
`Nat` with explicit `% 2^32`, the SQLite table as a list of records with the
UNIQUE constraint modelled by an `Except`-returning insert, and the
filesystem as an association list from path to node (regular file with
content, or symbolic link with target).
-/

namespace DupeLinker

abbrev Bytes := List Nat

/-! ### SHA-256 (hashlib.sha256), executable over `Nat` with explicit mod 2^32 -/

def w32 (n : Nat) : Nat := n % 4294967296

def wadd (a b : Nat) : Nat := (a + b) % 4294967296

def rotr32 (n x : Nat) : Nat := ((x >>> n) ||| (x <<< (32 - n))) % 4294967296

def bigSigma0 (x : Nat) : Nat := (rotr32 2 x) ^^^ (rotr32 13 x) ^^^ (rotr32 22 x)

def bigSigma1 (x : Nat) : Nat := (rotr32 6 x) ^^^ (rotr32 11 x) ^^^ (rotr32 25 x)

def smallSigma0 (x : Nat) : Nat := (rotr32 7 x) ^^^ (rotr32 18 x) ^^^ (x >>> 3)

def smallSigma1 (x : Nat) : Nat := (rotr32 17 x) ^^^ (rotr32 19 x) ^^^ (x >>> 10)

def chFn (x y z : Nat) : Nat := (x &&& y) ^^^ ((x ^^^ 4294967295) &&& z)

def majFn (x y z : Nat) : Nat := (x &&& y) ^^^ (x &&& z) ^^^ (y &&& z)

def K256 : List Nat :=
  [1116352408, 1899447441, 3049323471, 3921009573, 961987163,
   1508970993, 2453635748, 2870763221, 3624381080, 310598401,
   607225278, 1426881987, 1925078388, 2162078206, 2614888103,
   3248222580, 3835390401, 4022224774, 264347078, 604807628,
   770255983, 1249150122, 1555081692, 1996064986, 2554220882,
   2821834349, 2952996808, 3210313671, 3336571891, 3584528711,
   113926993, 338241895, 666307205, 773529912, 1294757372,
   1396182291, 1695183700, 1986661051, 2177026350, 2456956037,
   2730485921, 2820302411, 3259730800, 3345764771, 3516065817,
   3600352804, 4094571909, 275423344, 430227734, 506948616,
   659060556, 883997877, 958139571, 1322822218, 1537002063,
   1747873779, 1955562222, 2024104815, 2227730452, 2361852424,
   2428436474, 2756734187, 3204031479, 3329325298]

structure Hash8 where
  a : Nat
  b : Nat
  c : Nat
  d : Nat
  e : Nat
  f : Nat
  g : Nat
  h : Nat

def H0 : Hash8 :=
  ⟨1779033703, 3144134277, 1013904242, 2773480762,
   1359893119, 2600822924, 528734635, 1541459225⟩

/-- Number of zero padding bytes so that length + 1 + zeros + 8 is a multiple of 64. -/
def padZeros (len : Nat) : Nat := (64 - ((len + 9) % 64)) % 64

/-- Big-endian 8-byte encoding of the bit length. -/
def lenBytes (len : Nat) : Bytes :=
  (List.range 8).map (fun i => ((8 * len) >>> (8 * (7 - i))) % 256)

def shaPad (msg : Bytes) : Bytes :=
  msg ++ [0x80] ++ List.replicate (padZeros msg.length) 0 ++ lenBytes msg.length

/-- Group a byte list into big-endian 32-bit words, 4 bytes per word. -/
def toWords : Bytes → List Nat
  | b0 :: b1 :: b2 :: b3 :: rest =>
      (b0 <<< 24 ||| b1 <<< 16 ||| b2 <<< 8 ||| b3) :: toWords rest
  | _ => []

/-- Split a word list into blocks of 16 words (fuel-based so that the kernel
can evaluate it; the fuel, one unit per word, always suffices). -/
def toBlocksAux : Nat → List Nat → List (List Nat)
  | _, [] => []
  | 0, _ => []
  | fuel + 1, w => (w.take 16) :: toBlocksAux fuel (w.drop 16)

def toBlocks (w : List Nat) : List (List Nat) := toBlocksAux w.length w

/-- Extend a 16-word block to the 64-word message schedule. -/
def msgSchedule (block : List Nat) : List Nat :=
  (List.range 48).foldl
    (fun w _ =>
      let n := w.length
      w ++ [wadd (wadd (smallSigma1 (w.getD (n - 2) 0)) (w.getD (n - 7) 0))
                 (wadd (smallSigma0 (w.getD (n - 15) 0)) (w.getD (n - 16) 0))])
    block

def shaRound (st : Hash8) (kw : Nat × Nat) : Hash8 :=
  let t1 := wadd st.h (wadd (bigSigma1 st.e) (wadd (chFn st.e st.f st.g) (wadd kw.1 kw.2)))
  let t2 := wadd (bigSigma0 st.a) (majFn st.a st.b st.c)
  ⟨wadd t1 t2, st.a, st.b, st.c, wadd st.d t1, st.e, st.f, st.g⟩

def compressBlock (st : Hash8) (block : List Nat) : Hash8 :=
  let w := msgSchedule block
  let r := (K256.zip w).foldl shaRound st
  ⟨wadd st.a r.a, wadd st.b r.b, wadd st.c r.c, wadd st.d r.d,
   wadd st.e r.e, wadd st.f r.f, wadd st.g r.g, wadd st.h r.h⟩

/-- The SHA-256 digest of a byte string, as a 256-bit natural number. -/
def sha256Nat (msg : Bytes) : Nat :=
  let st := (toBlocks (toWords (shaPad msg))).foldl compressBlock H0
  ((((((st.a <<< 32 ||| st.b) <<< 32 ||| st.c) <<< 32 ||| st.d) <<< 32
      ||| st.e) <<< 32 ||| st.f) <<< 32 ||| st.g) <<< 32 ||| st.h

def hexChar (n : Nat) : Char :=
  if n < 10 then Char.ofNat (48 + n) else Char.ofNat (87 + n)

/-- The 64-character lowercase hexadecimal rendering of a 256-bit number,
big-endian with leading zeros, as produced by `hexdigest()`. -/
def hexdigest64 (n : Nat) : String :=
  String.mk ((List.range 64).map (fun i => hexChar ((n >>> (4 * (63 - i))) % 16)))

/-! ### hashlib object model: `update` accumulates bytes, `hexdigest` hashes them -/

def sha256New : Bytes := []

def sha256Update (state : Bytes) (chunk : Bytes) : Bytes := state ++ chunk

def sha256Hexdigest (state : Bytes) : String := hexdigest64 (sha256Nat state)

/-- The `iter(lambda: f.read(4096), b"")` loop: the file content split into
successive chunks of 4096 bytes, stopping at the empty read (fuel-based so
that the kernel can evaluate it; one unit of fuel per byte always suffices). -/
def chunksAux : Nat → Bytes → List Bytes
  | _, [] => []
  | 0, _ => []
  | fuel + 1, b :: bs => ((b :: bs).take 4096) :: chunksAux fuel ((b :: bs).drop 4096)

def chunks4096 (bs : Bytes) : List Bytes := chunksAux bs.length bs

/-- `calculate_file_hash`: streams the file content in 4096-byte chunks into a
fresh SHA-256 object and returns the path with the hex digest. -/
def calculate_file_hash (file_path : String) (content : Bytes) : String × String :=
  (file_path, sha256Hexdigest ((chunks4096 content).foldl sha256Update sha256New))

example : sha256Nat [] =
    0xe3b0c44298fc1c149afbf4c8996fb92427ae41e4649b934ca495991b7852b855 := by decide

example : sha256Nat [0x61, 0x62, 0x63] =
    0xba7816bf8f01cfea414140de5dae2223b00361a396177a9cb410ff61f20015ad := by decide

/-! ### `os.path.splitext` and `os.path.basename` (posixpath semantics) -/

/-- Index of the last occurrence of a character, `-1` when absent
(Python `str.rfind`). -/
def rfind (ch : Char) (cs : List Char) : Int :=
  cs.enum.foldl (fun acc e => if e.2 = ch then (e.1 : Int) else acc) (-1)

/-- The `while filenameIndex < dotIndex` loop of CPython `_splitext`: true when
some character strictly between the separator index and the dot index is not a
dot, i.e. the basename does not consist solely of leading dots up to the
extension dot. -/
def hasNonDotBetween (p : List Char) (lo hi : Int) : Bool :=
  p.enum.any (fun e => decide (lo < (e.1 : Int)) && decide ((e.1 : Int) < hi) && (e.2 != '.'))

/-- `os.path.splitext`: split off the final extension, treating leading dots of
the basename as part of the root (so a dotfile like ".bin" has no extension). -/
def splitext (s : String) : String × String :=
  let p := s.data
  let sepIndex := rfind '/' p
  let dotIndex := rfind '.' p
  if dotIndex > sepIndex ∧ hasNonDotBetween p sepIndex dotIndex then
    (String.mk (p.take dotIndex.toNat), String.mk (p.drop dotIndex.toNat))
  else (s, "")

/-- `os.path.basename`: everything after the last slash. -/
def basename (s : String) : String :=
  String.mk (s.data.drop ((rfind '/' s.data) + 1).toNat)

/-! ### Filesystem model: a flat association list from path to node -/

inductive FNode
  | file (content : Bytes)
  | link (target : String)
deriving DecidableEq

abbrev FS := List (String × FNode)

/-- Resolve a path against the filesystem: the node of the first entry whose
path matches. -/
def lookupFS : FS → String → Option FNode
  | [], _ => none
  | e :: es, p => if e.1 = p then some e.2 else lookupFS es p

/-- `os.path.islink` (false for a missing path). -/
def islink (fs : FS) (p : String) : Bool :=
  match lookupFS fs p with
  | some (.link _) => true
  | _ => false

/-- `os.path.getsize`, total version used during traversal where the walked
entry exists: follows one symbolic-link hop; size of the pointed-to content. -/
def getsize (fs : FS) (p : String) : Nat :=
  match lookupFS fs p with
  | some (.file c) => c.length
  | some (.link t) =>
    match lookupFS fs t with
    | some (.file c) => c.length
    | _ => 0
  | none => 0

/-- `os.path.getsize` as used in the commit loop, where the path may have been
removed externally: raises `OSError` when the path cannot be resolved. -/
def getsize_io (fs : FS) (p : String) : Except String Nat :=
  match lookupFS fs p with
  | some (.file c) => .ok c.length
  | some (.link t) =>
    match lookupFS fs t with
    | some (.file c) => .ok c.length
    | _ => .error ("OSError: getsize " ++ p)
  | none => .error ("OSError: getsize " ++ p)

/-- `os.remove`: raises `FileNotFoundError` when the path is absent. -/
def os_remove (fs : FS) (p : String) : Except String FS :=
  if (lookupFS fs p).isSome then .ok (fs.filter (fun e => !(e.1 == p)))
  else .error ("FileNotFoundError: remove " ++ p)

/-- `os.symlink target p`: creates a symbolic link at `p` pointing to `target`;
raises `FileExistsError` when `p` already exists. -/
def os_symlink (fs : FS) (target p : String) : Except String FS :=
  if (lookupFS fs p).isSome then .error ("FileExistsError: symlink " ++ p)
  else .ok (fs ++ [(p, .link target)])

/-- `traverse_directory`: yield each walked file whose `splitext` extension is
in the requested list, that is not a symbolic link, and whose size is not 0. -/
def traverse_directory (fs : FS) (extensions : List String) : List String :=
  fs.filterMap (fun e =>
    if (splitext e.1).2 ∈ extensions then
      if islink fs e.1 = false ∧ getsize fs e.1 ≠ 0 then some e.1 else none
    else none)

/-! ### The SQLite index: table `files` with `UNIQUE` on the `sha256` column -/

structure FileRecord where
  id : Nat
  filename : String
  path : String
  sha256 : String
deriving DecidableEq

abbrev DB := List FileRecord

/-- `lookup_hash`: `SELECT id, path, sha256 FROM files WHERE sha256=?`. -/
def lookup_hash (db : DB) (hash : String) : Option FileRecord :=
  db.find? (fun r => r.sha256 == hash)

/-- `save_hash`: `INSERT INTO files (filename, path, sha256) VALUES (?, ?, ?)`.
The `UNIQUE` constraint on `sha256` makes the insert fail with an
`IntegrityError` when a record with this digest already exists; on success the
row is appended with the next autoincrement id. -/
def save_hash (db : DB) (file_path hash : String) : Except String DB :=
  if db.any (fun r => r.sha256 == hash) then
    .error "IntegrityError: UNIQUE constraint failed: files.sha256"
  else
    .ok (db ++ [⟨db.length + 1, basename file_path, file_path, hash⟩])

/-! ### The engine: the `as_completed` commit loop of `process_files` -/

inductive Event
  | printAdded (path hash : String)
  | printCouldLink (path canon : String) (saved : Nat)
  | printSymlinking (path canon : String) (saved : Nat)
  | osRemove (path : String)
  | osSymlink (target path : String)
deriving DecidableEq

structure EngineState where
  db : DB
  fs : FS
  total_savings : Nat
  events : List Event
deriving DecidableEq

/-- `calculate_file_hash` as executed by a worker: `open` follows symbolic
links and raises `IOError` when the file has vanished; an exception stored in
the future is re-raised by `future.result()`. -/
def calculate_file_hash_io (fs : FS) (file_path : String) : Except String (String × String) :=
  match lookupFS fs file_path with
  | some (.file c) => .ok (calculate_file_hash file_path c)
  | some (.link t) =>
    match lookupFS fs t with
    | some (.file c) => .ok (calculate_file_hash file_path c)
    | _ => .error ("IOError: open " ++ file_path)
  | none => .error ("IOError: open " ++ file_path)

/-- Body of the `for future in as_completed(futures)` loop, for one completed
`(file_path, hash_value)` result. No exception is caught anywhere in the
source, so any raised error propagates out of the loop. -/
def processOne (dry_run : Bool) (st : EngineState) (r : String × String) : Except String EngineState :=
  let file_path := r.1
  let hash_value := r.2
  match lookup_hash st.db hash_value with
  | some result =>
    if result.path ≠ file_path then do
      let new_savings ← getsize_io st.fs file_path
      let total := st.total_savings + new_savings
      if dry_run = false then do
        let fs1 ← os_remove st.fs file_path
        let fs2 ← os_symlink fs1 result.path file_path
        pure { st with
               total_savings := total,
               fs := fs2,
               events := st.events ++
                 [.printSymlinking file_path result.path new_savings,
                  .osRemove file_path,
                  .osSymlink result.path file_path] }
      else
        pure { st with
               total_savings := total,
               events := st.events ++
                 [.printCouldLink file_path result.path new_savings] }
    else
      pure st
  | none => do
    let db2 ← save_hash st.db file_path hash_value
    pure { st with
           db := db2,
           events := st.events ++ [.printAdded file_path hash_value] }

/-- One iteration of the commit loop: obtain the future's result (re-raising a
hashing exception) and process it. Hashing reads the filesystem as it was when
the futures were submitted. -/
def step (dry_run : Bool) (fsHash : FS) (st : EngineState) (file_path : String) : Except String EngineState := do
  let r ← calculate_file_hash_io fsHash file_path
  processOne dry_run st r

/-- `process_files`: fold the commit loop over the futures in their completion
order. `completion_order` models the order in which `as_completed` delivers
the futures submitted for `traverse_directory fs extensions`; theorems
constrain it to be a permutation of that list (or, for claims about races,
leave it arbitrary). Savings start at 0 each run. -/
def process_files (dry_run : Bool) (fs : FS) (db0 : DB) (completion_order : List String) : Except String EngineState :=
  completion_order.foldlM (step dry_run fs) { db := db0, fs := fs, total_savings := 0, events := [] }

/-! ### Derived notions used to state the properties -/

/-- The byte content a successful `open`-and-read of `p` yields (one
symbolic-link hop). -/
def contentOf (fs : FS) (p : String) : Bytes :=
  match lookupFS fs p with
  | some (.file c) => c
  | some (.link t) =>
    match lookupFS fs t with
    | some (.file c) => c
    | _ => []
  | none => []

/-- The digest a worker computes for path `p` against filesystem `fs`. -/
def digestOf (fs : FS) (p : String) : String :=
  (calculate_file_hash p (contentOf fs p)).2

/-- The pure index transition performed by one commit-loop iteration: a record
is appended exactly when the digest is not yet present. -/
def dbStep (fs : FS) (db : DB) (p : String) : DB :=
  match lookup_hash db (digestOf fs p) with
  | some _ => db
  | none => db ++ [⟨db.length + 1, basename p, p, digestOf fs p⟩]

/-- Events that mutate the filesystem (as opposed to mere reporting). -/
def isFsOp : Event → Bool
  | .osRemove _ => true
  | .osSymlink _ _ => true
  | _ => false

/-- The digest-uniqueness invariant of the `files` table. -/
def UniqueDigests (db : DB) : Prop :=
  db.Pairwise (fun r s => r.sha256 ≠ s.sha256)

/-- Number of records carrying a given digest. -/
def countDigest (db : DB) (d : String) : Nat :=
  (db.filter (fun r => r.sha256 == d)).length

/-- The sixteen characters a hexadecimal string may contain. -/
def hexAlphabet : List Char := String.data "0123456789abcdef"

/-- All eight state words fit in 32 bits. -/
def Bounded32 (s : Hash8) : Prop :=
  s.a < 4294967296 ∧ s.b < 4294967296 ∧ s.c < 4294967296 ∧ s.d < 4294967296 ∧
  s.e < 4294967296 ∧ s.f < 4294967296 ∧ s.g < 4294967296 ∧ s.h < 4294967296

/-! ### Helper lemmas: path lookup -/

theorem lookupFS_append_of_none {fs1 : FS} {p : String} (fs2 : FS)
    (h : lookupFS fs1 p = none) : lookupFS (fs1 ++ fs2) p = lookupFS fs2 p := by
  induction fs1 with
  | nil => rfl
  | cons e es ih =>
    simp only [lookupFS] at h
    by_cases he : e.1 = p
    · simp [he] at h
    · simp only [List.cons_append, lookupFS, he, if_false] at h ⊢
      exact ih h

theorem lookupFS_append_of_some {fs1 : FS} {p : String} {v : FNode} (fs2 : FS)
    (h : lookupFS fs1 p = some v) : lookupFS (fs1 ++ fs2) p = some v := by
  induction fs1 with
  | nil => simp [lookupFS] at h
  | cons e es ih =>
    simp only [lookupFS] at h
    by_cases he : e.1 = p
    · simp only [he, if_true] at h
      simp [List.cons_append, lookupFS, he, h]
    · simp only [he, if_false] at h
      simp only [List.cons_append, lookupFS, he, if_false]
      exact ih h

theorem lookupFS_filter_self (fs : FS) (p : String) :
    lookupFS (fs.filter (fun e => !(e.1 == p))) p = none := by
  induction fs with
  | nil => rfl
  | cons e es ih =>
    by_cases he : e.1 = p
    · simpa [List.filter_cons, he] using ih
    · simp [List.filter_cons, he, lookupFS, ih]

theorem lookupFS_filter_ne {p q : String} (fs : FS) (h : q ≠ p) :
    lookupFS (fs.filter (fun e => !(e.1 == p))) q = lookupFS fs q := by
  induction fs with
  | nil => rfl
  | cons e es ih =>
    by_cases he : e.1 = p
    · have hpq : ¬ p = q := fun hx => h hx.symm
      simp [List.filter_cons, he, lookupFS, hpq, ih]
    · simp only [List.filter_cons, show ((e.1 == p) = false) from beq_eq_false_iff_ne.2 he,
        Bool.not_false, if_true, lookupFS]
      by_cases hq : e.1 = q
      · simp [hq]
      · simp [hq, ih]

theorem lookupFS_replace_self (fs : FS) (p : String) (x : FNode) :
    lookupFS (fs.filter (fun e => !(e.1 == p)) ++ [(p, x)]) p = some x := by
  rw [lookupFS_append_of_none _ (lookupFS_filter_self fs p)]
  simp [lookupFS]

theorem lookupFS_replace_ne {p q : String} (fs : FS) (x : FNode) (h : q ≠ p) :
    lookupFS (fs.filter (fun e => !(e.1 == p)) ++ [(p, x)]) q = lookupFS fs q := by
  cases hq : lookupFS fs q with
  | some v =>
    exact lookupFS_append_of_some _ ((lookupFS_filter_ne fs h).trans hq)
  | none =>
    rw [lookupFS_append_of_none _ ((lookupFS_filter_ne fs h).trans hq)]
    simp [lookupFS, show ¬ p = q from fun hx => h hx.symm]

theorem lookupFS_mem {fs : FS} {p : String} {v : FNode}
    (h : lookupFS fs p = some v) : (p, v) ∈ fs := by
  induction fs with
  | nil => simp [lookupFS] at h
  | cons e es ih =>
    simp only [lookupFS] at h
    by_cases he : e.1 = p
    · simp only [he, if_true, Option.some.injEq] at h
      have hev : (p, v) = e := by
        calc (p, v) = (e.1, e.2) := by rw [he, h]
          _ = e := rfl
      rw [hev]
      exact List.mem_cons_self _ _
    · simp only [he, if_false] at h
      exact List.mem_cons_of_mem _ (ih h)

theorem lookupFS_of_mem_keys {fs : FS} {p : String}
    (h : p ∈ fs.map Prod.fst) : ∃ v, lookupFS fs p = some v := by
  induction fs with
  | nil => simp at h
  | cons e es ih =>
    simp only [List.map_cons, List.mem_cons] at h
    by_cases he : e.1 = p
    · exact ⟨e.2, by simp [lookupFS, he]⟩
    · rcases h with h | h
      · exact absurd h.symm he
      · rcases ih h with ⟨v, hv⟩
        exact ⟨v, by simp [lookupFS, he, hv]⟩

/-! ### Helper lemmas: the index table -/

theorem lookup_hash_eq_none_iff {db : DB} {h : String} :
    lookup_hash db h = none ↔ ∀ r ∈ db, r.sha256 ≠ h := by
  simp [lookup_hash, List.find?_eq_none]

theorem lookup_hash_some_mem {db : DB} {h : String} {r : FileRecord}
    (hl : lookup_hash db h = some r) : r ∈ db ∧ r.sha256 = h := by
  refine ⟨List.mem_of_find?_eq_some hl, ?_⟩
  have := List.find?_some hl
  simpa using this

theorem save_hash_of_lookup_none {db : DB} {p h : String}
    (hl : lookup_hash db h = none) :
    save_hash db p h = .ok (db ++ [⟨db.length + 1, basename p, p, h⟩]) := by
  have hany : db.any (fun r => r.sha256 == h) = false := by
    simp only [List.any_eq_false]
    intro r hr
    simpa using (lookup_hash_eq_none_iff.1 hl) r hr
  simp [save_hash, hany]

theorem save_hash_error_of_mem {db : DB} {p h : String} {r : FileRecord}
    (hr : r ∈ db) (hs : r.sha256 = h) :
    save_hash db p h = .error "IntegrityError: UNIQUE constraint failed: files.sha256" := by
  have hany : db.any (fun x => x.sha256 == h) = true :=
    List.any_eq_true.2 ⟨r, hr, by simp [hs]⟩
  simp [save_hash, hany]

theorem lookup_hash_append_of_none {db1 : DB} {h : String} (db2 : DB)
    (hl : lookup_hash db1 h = none) :
    lookup_hash (db1 ++ db2) h = lookup_hash db2 h := by
  induction db1 with
  | nil => rfl
  | cons r rs ih =>
    simp only [lookup_hash, List.find?] at hl ⊢
    cases hb : (r.sha256 == h) with
    | true => simp [hb] at hl
    | false =>
      simp only [hb] at hl ⊢
      exact ih hl

/-! ### Helper lemmas: hashing -/

theorem chunksAux_foldl (fuel : Nat) : ∀ (bs acc : Bytes), bs.length ≤ fuel →
    (chunksAux fuel bs).foldl sha256Update acc = acc ++ bs := by
  induction fuel with
  | zero =>
    intro bs acc h
    have : bs = [] := List.length_eq_zero.1 (Nat.le_zero.1 h)
    subst this
    simp [chunksAux]
  | succ n ih =>
    intro bs acc h
    cases bs with
    | nil => simp [chunksAux]
    | cons b bs =>
      simp only [List.length_cons] at h
      simp only [chunksAux, List.foldl_cons]
      rw [ih _ _ (by simp only [List.length_drop, List.length_cons]; omega)]
      simp [sha256Update, List.append_assoc]

theorem chunks4096_foldl (bs : Bytes) :
    (chunks4096 bs).foldl sha256Update sha256New = bs := by
  simpa [sha256New] using chunksAux_foldl bs.length bs [] (Nat.le_refl _)

theorem calculate_file_hash_eq (p : String) (c : Bytes) :
    calculate_file_hash p c = (p, sha256Hexdigest c) := by
  simp [calculate_file_hash, chunks4096_foldl]

theorem digestOf_of_file {fs : FS} {p : String} {c : Bytes}
    (h : lookupFS fs p = some (.file c)) : digestOf fs p = sha256Hexdigest c := by
  simp [digestOf, contentOf, h, calculate_file_hash_eq]

theorem calculate_file_hash_io_of_file {fs : FS} {p : String} {c : Bytes}
    (h : lookupFS fs p = some (.file c)) :
    calculate_file_hash_io fs p = .ok (p, digestOf fs p) := by
  simp [calculate_file_hash_io, h, calculate_file_hash_eq, digestOf_of_file h]

theorem getsize_io_of_file {fs : FS} {p : String} {c : Bytes}
    (h : lookupFS fs p = some (.file c)) : getsize_io fs p = .ok c.length := by
  simp [getsize_io, h]

/-! ### Helper lemmas: one commit-loop iteration -/

theorem except_bind_ok {α β : Type} (a : α) (f : α → Except String β) :
    (Except.ok a >>= f) = f a := rfl

theorem except_map_ok {α β : Type} (g : α → β) (a : α) :
    (g <$> (Except.ok a : Except String α)) = Except.ok (g a) := rfl

theorem processOne_new {st : EngineState} {p d : String} (dry : Bool)
    (hl : lookup_hash st.db d = none) :
    processOne dry st (p, d) = .ok
      { st with
        db := st.db ++ [⟨st.db.length + 1, basename p, p, d⟩],
        events := st.events ++ [.printAdded p d] } := by
  rw [show processOne dry st (p, d) =
    (match lookup_hash st.db d with
     | some result =>
       if result.path ≠ p then do
         let new_savings ← getsize_io st.fs p
         let total := st.total_savings + new_savings
         if dry = false then do
           let fs1 ← os_remove st.fs p
           let fs2 ← os_symlink fs1 result.path p
           pure { st with
                  total_savings := total,
                  fs := fs2,
                  events := st.events ++
                    [.printSymlinking p result.path new_savings,
                     .osRemove p,
                     .osSymlink result.path p] }
         else
           pure { st with
                  total_savings := total,
                  events := st.events ++
                    [.printCouldLink p result.path new_savings] }
       else
         pure st
     | none => do
       let db2 ← save_hash st.db p d
       pure { st with
              db := db2,
              events := st.events ++ [.printAdded p d] }) from rfl]
  rw [hl, save_hash_of_lookup_none hl]
  rfl

theorem processOne_same {st : EngineState} {p d : String} {r : FileRecord} (dry : Bool)
    (hl : lookup_hash st.db d = some r) (hp : r.path = p) :
    processOne dry st (p, d) = .ok st := by
  simp only [processOne, hl, hp, ne_eq, not_true_eq_false, if_false]
  rfl

theorem processOne_dup_dry {st : EngineState} {p d : String} {r : FileRecord} {c : Bytes}
    (hl : lookup_hash st.db d = some r) (hp : r.path ≠ p)
    (hf : lookupFS st.fs p = some (.file c)) :
    processOne true st (p, d) = .ok
      { st with
        total_savings := st.total_savings + c.length,
        events := st.events ++ [.printCouldLink p r.path c.length] } := by
  simp [processOne, hl, hp, getsize_io_of_file hf]

theorem processOne_dup_live {st : EngineState} {p d : String} {r : FileRecord} {c : Bytes}
    (hl : lookup_hash st.db d = some r) (hp : r.path ≠ p)
    (hf : lookupFS st.fs p = some (.file c)) :
    processOne false st (p, d) = .ok
      { st with
        total_savings := st.total_savings + c.length,
        fs := st.fs.filter (fun e => !(e.1 == p)) ++ [(p, .link r.path)],
        events := st.events ++
          [.printSymlinking p r.path c.length, .osRemove p, .osSymlink r.path p] } := by
  have h1 : os_remove st.fs p = .ok (st.fs.filter (fun e => !(e.1 == p))) := by
    simp [os_remove, hf]
  have h2 : os_symlink (st.fs.filter (fun e => !(e.1 == p))) r.path p =
      .ok (st.fs.filter (fun e => !(e.1 == p)) ++ [(p, .link r.path)]) := by
    simp [os_symlink, lookupFS_filter_self]
  simp only [processOne, hl, hp, ne_eq, not_false_eq_true, if_true,
    getsize_io_of_file hf, h1, except_bind_ok, except_map_ok, h2]
  rfl

theorem step_of_file {fs0 : FS} {p : String} {c : Bytes} (dry : Bool) (st : EngineState)
    (hf : lookupFS fs0 p = some (.file c)) :
    step dry fs0 st p = processOne dry st (p, digestOf fs0 p) := by
  simp only [step, calculate_file_hash_io_of_file hf]
  rfl

/-! ### The main run lemma: the commit loop succeeds, its index transitions
are the pure `dbStep` fold, and a dry run never touches the filesystem. -/

theorem run_aux (dry : Bool) (fs0 : FS) :
    ∀ (order : List String) (st0 : EngineState),
    order.Nodup →
    (∀ p ∈ order, ∃ c, lookupFS fs0 p = some (FNode.file c)) →
    (∀ p ∈ order, lookupFS st0.fs p = lookupFS fs0 p) →
    ∃ st, order.foldlM (step dry fs0) st0 = Except.ok st
      ∧ st.db = order.foldl (dbStep fs0) st0.db
      ∧ (dry = true → st.fs = st0.fs ∧
          st.events.all (fun e => !(isFsOp e)) = st0.events.all (fun e => !(isFsOp e))) := by
  intro order
  induction order with
  | nil =>
    intro st0 _ _ _
    exact ⟨st0, rfl, rfl, fun _ => ⟨rfl, rfl⟩⟩
  | cons p rest ih =>
    intro st0 hnd hreg hagree
    obtain ⟨c, hc⟩ := hreg p (List.mem_cons_self p rest)
    have hc0 : lookupFS st0.fs p = some (FNode.file c) :=
      (hagree p (List.mem_cons_self p rest)).trans hc
    have hnp : p ∉ rest := (List.nodup_cons.1 hnd).1
    have hndr : rest.Nodup := (List.nodup_cons.1 hnd).2
    have hregr : ∀ q ∈ rest, ∃ b, lookupFS fs0 q = some (FNode.file b) :=
      fun q hq => hreg q (List.mem_cons_of_mem _ hq)
    have hagreer : ∀ q ∈ rest, lookupFS st0.fs q = lookupFS fs0 q :=
      fun q hq => hagree q (List.mem_cons_of_mem _ hq)
    cases hl : lookup_hash st0.db (digestOf fs0 p) with
    | none =>
      have hstep : step dry fs0 st0 p = Except.ok
          { st0 with
            db := st0.db ++ [⟨st0.db.length + 1, basename p, p, digestOf fs0 p⟩],
            events := st0.events ++ [.printAdded p (digestOf fs0 p)] } := by
        rw [step_of_file dry st0 hc]
        exact processOne_new dry hl
      obtain ⟨st, hfold, hdb, hdry⟩ := ih
        { st0 with
          db := st0.db ++ [⟨st0.db.length + 1, basename p, p, digestOf fs0 p⟩],
          events := st0.events ++ [.printAdded p (digestOf fs0 p)] }
        hndr hregr hagreer
      refine ⟨st, ?_, ?_, ?_⟩
      · rw [List.foldlM_cons, hstep, except_bind_ok]
        exact hfold
      · rw [List.foldl_cons,
          show dbStep fs0 st0.db p =
            st0.db ++ [⟨st0.db.length + 1, basename p, p, digestOf fs0 p⟩] from
              by simp [dbStep, hl]]
        exact hdb
      · intro h
        obtain ⟨hfs, hev⟩ := hdry h
        exact ⟨hfs, hev.trans (by simp [List.all_append, isFsOp])⟩
    | some r =>
      have hdbstep : dbStep fs0 st0.db p = st0.db := by simp [dbStep, hl]
      by_cases hrp : r.path = p
      · have hstep : step dry fs0 st0 p = Except.ok st0 := by
          rw [step_of_file dry st0 hc]
          exact processOne_same dry hl hrp
        obtain ⟨st, hfold, hdb, hdry⟩ := ih st0 hndr hregr hagreer
        refine ⟨st, ?_, ?_, hdry⟩
        · rw [List.foldlM_cons, hstep, except_bind_ok]
          exact hfold
        · rw [List.foldl_cons, hdbstep]
          exact hdb
      · cases dry with
        | true =>
          have hstep : step true fs0 st0 p = Except.ok
              { st0 with
                total_savings := st0.total_savings + c.length,
                events := st0.events ++ [.printCouldLink p r.path c.length] } := by
            rw [step_of_file true st0 hc]
            exact processOne_dup_dry hl hrp hc0
          obtain ⟨st, hfold, hdb, hdry⟩ := ih
            { st0 with
              total_savings := st0.total_savings + c.length,
              events := st0.events ++ [.printCouldLink p r.path c.length] }
            hndr hregr hagreer
          refine ⟨st, ?_, ?_, ?_⟩
          · rw [List.foldlM_cons, hstep, except_bind_ok]
            exact hfold
          · rw [List.foldl_cons, hdbstep]
            exact hdb
          · intro h
            obtain ⟨hfs, hev⟩ := hdry h
            exact ⟨hfs, hev.trans (by simp [List.all_append, isFsOp])⟩
        | false =>
          have hstep : step false fs0 st0 p = Except.ok
              { st0 with
                total_savings := st0.total_savings + c.length,
                fs := st0.fs.filter (fun e => !(e.1 == p)) ++ [(p, .link r.path)],
                events := st0.events ++
                  [.printSymlinking p r.path c.length, .osRemove p,
                   .osSymlink r.path p] } := by
            rw [step_of_file false st0 hc]
            exact processOne_dup_live hl hrp hc0
          obtain ⟨st, hfold, hdb, hdry⟩ := ih
            { st0 with
              total_savings := st0.total_savings + c.length,
              fs := st0.fs.filter (fun e => !(e.1 == p)) ++ [(p, .link r.path)],
              events := st0.events ++
                [.printSymlinking p r.path c.length, .osRemove p,
                 .osSymlink r.path p] }
            hndr hregr
            (fun q hq =>
              (lookupFS_replace_ne st0.fs (FNode.link r.path)
                (fun h => hnp (by rwa [h] at hq))).trans (hagreer q hq))
          refine ⟨st, ?_, ?_, ?_⟩
          · rw [List.foldlM_cons, hstep, except_bind_ok]
            exact hfold
          · rw [List.foldl_cons, hdbstep]
            exact hdb
          · intro h
            exact absurd h (by simp)

/-! ### Helper lemmas: the traversal filter -/

theorem mem_traverse_iff {fs : FS} {exts : List String} {p : String} :
    p ∈ traverse_directory fs exts ↔
      ∃ e ∈ fs, e.1 = p ∧ (splitext p).2 ∈ exts ∧ islink fs p = false ∧
        getsize fs p ≠ 0 := by
  simp only [traverse_directory, List.mem_filterMap]
  constructor
  · rintro ⟨e, he, hf⟩
    by_cases h1 : (splitext e.1).2 ∈ exts
    · rw [if_pos h1] at hf
      by_cases h2 : islink fs e.1 = false ∧ getsize fs e.1 ≠ 0
      · rw [if_pos h2] at hf
        have hep : e.1 = p := Option.some.inj hf
        exact ⟨e, he, hep, hep ▸ h1, hep ▸ h2.1, hep ▸ h2.2⟩
      · rw [if_neg h2] at hf
        exact Option.noConfusion hf
    · rw [if_neg h1] at hf
      exact Option.noConfusion hf
  · rintro ⟨e, he, hep, h1, h2, h3⟩
    refine ⟨e, he, ?_⟩
    rw [hep, if_pos h1, if_pos (And.intro h2 h3)]

theorem filterMap_key_sublist (g : String × FNode → Option String)
    (hg : ∀ e, g e = none ∨ g e = some e.1) :
    ∀ l : FS, List.Sublist (l.filterMap g) (l.map Prod.fst) := by
  intro l
  induction l with
  | nil => simp
  | cons e es ih =>
    simp only [List.filterMap_cons, List.map_cons]
    rcases hg e with h | h
    · rw [h]
      exact ih.cons _
    · rw [h]
      exact ih.cons₂ _

theorem traverse_sublist_keys (fs : FS) (exts : List String) :
    List.Sublist (traverse_directory fs exts) (fs.map Prod.fst) := by
  unfold traverse_directory
  refine filterMap_key_sublist _ ?_ fs
  intro e
  by_cases h1 : (splitext e.1).2 ∈ exts
  · by_cases h2 : islink fs e.1 = false ∧ getsize fs e.1 ≠ 0
    · right
      simp [h1, h2]
    · left
      simp [h1, h2]
  · left
    simp [h1]

theorem traverse_nodup {fs : FS} (exts : List String)
    (h : (fs.map Prod.fst).Nodup) : (traverse_directory fs exts).Nodup :=
  (traverse_sublist_keys fs exts).nodup h

theorem lookupFS_file_of_traverse {fs : FS} {exts : List String} {p : String}
    (h : p ∈ traverse_directory fs exts) :
    ∃ c, lookupFS fs p = some (FNode.file c) := by
  obtain ⟨e, he, hep, _, h2, _⟩ := mem_traverse_iff.1 h
  obtain ⟨v, hv⟩ := lookupFS_of_mem_keys
    (show p ∈ fs.map Prod.fst from List.mem_map.2 ⟨e, he, hep⟩)
  cases v with
  | file c => exact ⟨c, hv⟩
  | link t =>
    have hl : islink fs p = true := by
      unfold islink
      rw [hv]
    rw [h2] at hl
    exact Bool.noConfusion hl

/-! ### Helper lemmas: the pure index fold -/

theorem countDigest_append (db1 db2 : DB) (d : String) :
    countDigest (db1 ++ db2) d = countDigest db1 d + countDigest db2 d := by
  simp [countDigest, List.filter_append]

theorem countDigest_eq_zero_iff {db : DB} {d : String} :
    countDigest db d = 0 ↔ ∀ r ∈ db, r.sha256 ≠ d := by
  simp [countDigest, List.filter_eq_nil_iff, List.length_eq_zero]

theorem countDigest_le_one_of_unique {db : DB} (d : String)
    (h : UniqueDigests db) : countDigest db d ≤ 1 := by
  induction db with
  | nil => simp [countDigest]
  | cons r rs ih =>
    have hp := List.pairwise_cons.1 h
    by_cases hr : r.sha256 = d
    · have hz : countDigest rs d = 0 :=
        countDigest_eq_zero_iff.2 (fun s hs he => hp.1 s hs (hr.trans he.symm))
      have hc : countDigest (r :: rs) d = countDigest rs d + 1 := by
        simp [countDigest, List.filter_cons, hr]
      rw [hc, hz]
    · have hc : countDigest (r :: rs) d = countDigest rs d := by
        simp [countDigest, List.filter_cons, hr]
      rw [hc]
      exact ih hp.2

theorem uniqueDigests_dbStep {db : DB} (fs : FS) (p : String)
    (h : UniqueDigests db) : UniqueDigests (dbStep fs db p) := by
  unfold dbStep
  cases hl : lookup_hash db (digestOf fs p) with
  | some r => exact h
  | none =>
    unfold UniqueDigests
    rw [List.pairwise_append]
    refine ⟨h, List.pairwise_singleton _ _, ?_⟩
    intro r hr s hs
    simp only [List.mem_singleton] at hs
    subst hs
    exact fun he => (lookup_hash_eq_none_iff.1 hl) r hr he

theorem uniqueDigests_foldl (fs : FS) (order : List String) :
    ∀ db : DB, UniqueDigests db → UniqueDigests (order.foldl (dbStep fs) db) := by
  induction order with
  | nil => exact fun db h => h
  | cons p rest ih =>
    intro db h
    rw [List.foldl_cons]
    exact ih _ (uniqueDigests_dbStep fs p h)

theorem countDigest_dbStep_le (fs : FS) (p : String) (db : DB) (d : String) :
    countDigest db d ≤ countDigest (dbStep fs db p) d := by
  unfold dbStep
  cases lookup_hash db (digestOf fs p) with
  | some r => exact Nat.le_refl _
  | none =>
    rw [countDigest_append]
    exact Nat.le_add_right _ _

theorem countDigest_foldl_le (fs : FS) (order : List String) :
    ∀ (db : DB) (d : String),
    countDigest db d ≤ countDigest (order.foldl (dbStep fs) db) d := by
  induction order with
  | nil => exact fun db d => Nat.le_refl _
  | cons p rest ih =>
    intro db d
    rw [List.foldl_cons]
    exact Nat.le_trans (countDigest_dbStep_le fs p db d) (ih _ d)

theorem one_le_countDigest_dbStep (fs : FS) (db : DB) (p : String) :
    1 ≤ countDigest (dbStep fs db p) (digestOf fs p) := by
  unfold dbStep
  cases hl : lookup_hash db (digestOf fs p) with
  | some r =>
    obtain ⟨hr, hs⟩ := lookup_hash_some_mem hl
    have : r ∈ db.filter (fun x => x.sha256 == digestOf fs p) :=
      List.mem_filter.2 ⟨hr, by simp [hs]⟩
    exact List.length_pos.2 (fun he => by simp [he] at this)
  | none =>
    rw [countDigest_append]
    simp [countDigest]

/-! ### Helper lemmas: provenance of index records -/

theorem except_bind_error {α β : Type} (e : String) (f : α → Except String β) :
    ((Except.error e : Except String α) >>= f) = Except.error e := rfl

theorem save_hash_ok_inv {db db2 : DB} {p h : String}
    (hs : save_hash db p h = .ok db2) :
    db2 = db ++ [⟨db.length + 1, basename p, p, h⟩] := by
  unfold save_hash at hs
  by_cases ha : db.any (fun r => r.sha256 == h) = true
  · rw [if_pos ha] at hs
    exact Except.noConfusion hs
  · rw [if_neg ha] at hs
    exact (Except.ok.inj hs).symm

theorem calculate_file_hash_io_fst {fs : FS} {p : String} {r : String × String}
    (h : calculate_file_hash_io fs p = .ok r) : r.1 = p := by
  unfold calculate_file_hash_io at h
  split at h
  · rw [← Except.ok.inj h, calculate_file_hash_eq]
  · split at h
    · rw [← Except.ok.inj h, calculate_file_hash_eq]
    · exact Except.noConfusion h
  · exact Except.noConfusion h

theorem processOne_db_cases {dry : Bool} {st st1 : EngineState} {r : String × String}
    (h : processOne dry st r = .ok st1) :
    st1.db = st.db ∨ (lookup_hash st.db r.2 = none ∧
      st1.db = st.db ++ [⟨st.db.length + 1, basename r.1, r.1, r.2⟩]) := by
  unfold processOne at h
  dsimp only at h
  split at h
  · rename_i res heq
    split at h
    · cases hg : getsize_io st.fs r.1 with
      | error e =>
        rw [hg, except_bind_error] at h
        exact Except.noConfusion h
      | ok n =>
        rw [hg, except_bind_ok] at h
        cases dry with
        | true =>
          rw [if_neg (by decide : ¬ (true = false))] at h
          left
          rw [← Except.ok.inj h]
        | false =>
          rw [if_pos rfl] at h
          cases hr : os_remove st.fs r.1 with
          | error e =>
            rw [hr, except_bind_error] at h
            exact Except.noConfusion h
          | ok fs1 =>
            rw [hr, except_bind_ok] at h
            cases hy : os_symlink fs1 res.path r.1 with
            | error e =>
              rw [hy] at h
              exact Except.noConfusion h
            | ok fs2 =>
              rw [hy, except_bind_ok] at h
              left
              rw [← Except.ok.inj h]
    · left
      rw [← Except.ok.inj h]
  · rename_i heq
    cases hs : save_hash st.db r.1 r.2 with
    | error e =>
      rw [hs] at h
      exact Except.noConfusion h
    | ok db2 =>
      rw [hs, except_bind_ok] at h
      right
      refine ⟨heq, ?_⟩
      rw [← Except.ok.inj h]
      exact save_hash_ok_inv hs

theorem step_db_paths {dry : Bool} {fs0 : FS} {st st1 : EngineState} {p : String}
    (h : step dry fs0 st p = .ok st1) :
    ∀ r ∈ st1.db, r ∈ st.db ∨ r.path = p := by
  unfold step at h
  cases hc : calculate_file_hash_io fs0 p with
  | error e =>
    rw [hc, except_bind_error] at h
    exact Except.noConfusion h
  | ok hr =>
    rw [hc, except_bind_ok] at h
    intro r hrdb
    rcases processOne_db_cases h with h1 | h1
    · left
      rw [← h1]
      exact hrdb
    · rw [h1.2] at hrdb
      rcases List.mem_append.1 hrdb with h2 | h2
      · left
        exact h2
      · right
        simp only [List.mem_singleton] at h2
        rw [h2]
        exact calculate_file_hash_io_fst hc

theorem foldlM_db_paths (dry : Bool) (fs0 : FS) :
    ∀ (order : List String) (st0 st : EngineState),
    order.foldlM (step dry fs0) st0 = Except.ok st →
    ∀ r ∈ st.db, r ∈ st0.db ∨ r.path ∈ order := by
  intro order
  induction order with
  | nil =>
    intro st0 st h r hr
    rw [List.foldlM_nil] at h
    left
    rw [Except.ok.inj h]
    exact hr
  | cons p rest ih =>
    intro st0 st h r hr
    rw [List.foldlM_cons] at h
    cases hs : step dry fs0 st0 p with
    | error e =>
      rw [hs, except_bind_error] at h
      exact Except.noConfusion h
    | ok st1 =>
      rw [hs, except_bind_ok] at h
      rcases ih st1 st h r hr with h1 | h1
      · rcases step_db_paths hs r h1 with h2 | h2
        · left
          exact h2
        · right
          rw [h2]
          exact List.mem_cons_self _ _
      · right
        exact List.mem_cons_of_mem _ h1

/-! ### Helper lemmas: digest bounds and hexadecimal rendering -/

theorem uniqueDigests_append_fresh {db : DB} {rec : FileRecord}
    (hu : UniqueDigests db) (hf : ∀ r ∈ db, r.sha256 ≠ rec.sha256) :
    UniqueDigests (db ++ [rec]) := by
  unfold UniqueDigests
  rw [List.pairwise_append]
  refine ⟨hu, List.pairwise_singleton _ _, ?_⟩
  intro r hr s hs
  simp only [List.mem_singleton] at hs
  subst hs
  exact hf r hr

theorem wadd_lt (a b : Nat) : wadd a b < 4294967296 :=
  Nat.mod_lt _ (by norm_num)

theorem compressBlock_bounded (st : Hash8) (block : List Nat) :
    Bounded32 (compressBlock st block) :=
  ⟨wadd_lt _ _, wadd_lt _ _, wadd_lt _ _, wadd_lt _ _,
   wadd_lt _ _, wadd_lt _ _, wadd_lt _ _, wadd_lt _ _⟩

theorem foldl_compressBlock_bounded (blocks : List (List Nat)) :
    ∀ st : Hash8, Bounded32 st → Bounded32 (blocks.foldl compressBlock st) := by
  induction blocks with
  | nil => exact fun st h => h
  | cons b bs ih =>
    intro st _
    rw [List.foldl_cons]
    exact ih _ (compressBlock_bounded st b)

theorem lt_two_pow_32 {n : Nat} (h : n < 4294967296) : n < 2 ^ 32 := by
  rw [show (2 : Nat) ^ 32 = 4294967296 from by norm_num]
  exact h

theorem append_word_lt {x y : Nat} (k : Nat) (hx : x < 2 ^ k) (hy : y < 4294967296) :
    (x <<< 32 ||| y) < 2 ^ (k + 32) := by
  have h1 : x <<< 32 < 2 ^ (k + 32) := by
    rw [Nat.shiftLeft_eq, pow_add]
    exact Nat.mul_lt_mul_of_pos_right hx (by positivity)
  have h2 : y < 2 ^ (k + 32) :=
    lt_of_lt_of_le (lt_two_pow_32 hy)
      (Nat.pow_le_pow_right (by norm_num) (by omega))
  exact Nat.or_lt_two_pow h1 h2

theorem sha256Nat_lt (msg : Bytes) : sha256Nat msg < 2 ^ 256 := by
  unfold sha256Nat
  obtain ⟨ha, hb, hc, hd, he, hf, hg, hh⟩ :=
    foldl_compressBlock_bounded (toBlocks (toWords (shaPad msg))) H0
      (by refine ⟨?_, ?_, ?_, ?_, ?_, ?_, ?_, ?_⟩ <;> norm_num [H0])
  have h1 := append_word_lt 32 (lt_two_pow_32 ha) hb
  have h2 := append_word_lt 64 h1 hc
  have h3 := append_word_lt 96 h2 hd
  have h4 := append_word_lt 128 h3 he
  have h5 := append_word_lt 160 h4 hf
  have h6 := append_word_lt 192 h5 hg
  have h7 := append_word_lt 224 h6 hh
  exact h7

theorem hexdigest64_length (n : Nat) : (hexdigest64 n).length = 64 := by
  simp [hexdigest64, String.length]

theorem hexChar_mem_of_lt {k : Nat} (h : k < 16) : hexChar k ∈ hexAlphabet := by
  interval_cases k <;> decide

theorem hexdigest64_mem_hexAlphabet (n : Nat) :
    ∀ ch ∈ (hexdigest64 n).data, ch ∈ hexAlphabet := by
  intro ch hch
  simp only [hexdigest64, List.mem_map] at hch
  obtain ⟨i, _, hi⟩ := hch
  rw [← hi]
  exact hexChar_mem_of_lt (Nat.mod_lt _ (by norm_num))

/-! ### Helper lemmas: runs over a tree of identical-content files -/

theorem islink_of_file {fs : FS} {p : String} {c : Bytes}
    (h : lookupFS fs p = some (FNode.file c)) : islink fs p = false := by
  unfold islink
  rw [h]

theorem islink_of_link {fs : FS} {p : String} {t : String}
    (h : lookupFS fs p = some (FNode.link t)) : islink fs p = true := by
  unfold islink
  rw [h]

theorem getsize_of_file {fs : FS} {p : String} {c : Bytes}
    (h : lookupFS fs p = some (FNode.file c)) : getsize fs p = c.length := by
  unfold getsize
  rw [h]

theorem lookupFS_some_key_mem {fs : FS} {p : String} {v : FNode}
    (h : lookupFS fs p = some v) : p ∈ fs.map Prod.fst :=
  List.mem_map.2 ⟨(p, v), lookupFS_mem h, rfl⟩

theorem lookupFS_all_file {fs : FS} {p : String} {c : Bytes}
    (hall : ∀ e ∈ fs, e.2 = FNode.file c) (hmem : p ∈ fs.map Prod.fst) :
    lookupFS fs p = some (FNode.file c) := by
  obtain ⟨v, hv⟩ := lookupFS_of_mem_keys hmem
  have hv2 : v = FNode.file c := hall _ (lookupFS_mem hv)
  rw [hv, hv2]

theorem filterMap_eq_keys (g : String × FNode → Option String) :
    ∀ l : FS, (∀ e ∈ l, g e = some e.1) → l.filterMap g = l.map Prod.fst := by
  intro l
  induction l with
  | nil => intro _; rfl
  | cons e es ih =>
    intro h
    rw [List.filterMap_cons, h e (List.mem_cons_self _ _), List.map_cons,
      ih (fun x hx => h x (List.mem_cons_of_mem _ hx))]

theorem traverse_all_same {fs : FS} {exts : List String} {c : Bytes}
    (hc : c ≠ [])
    (hall : ∀ e ∈ fs, e.2 = FNode.file c)
    (hext : ∀ e ∈ fs, (splitext e.1).2 ∈ exts) :
    traverse_directory fs exts = fs.map Prod.fst := by
  unfold traverse_directory
  refine filterMap_eq_keys _ fs ?_
  intro e he
  have hkey : lookupFS fs e.1 = some (FNode.file c) :=
    lookupFS_all_file hall (List.mem_map.2 ⟨e, he, rfl⟩)
  have h2 : islink fs e.1 = false := islink_of_file hkey
  have h3 : getsize fs e.1 ≠ 0 := by
    rw [getsize_of_file hkey]
    exact fun h => hc (List.length_eq_zero.1 h)
  rw [if_pos (hext e he), if_pos (And.intro h2 h3)]

theorem filterMap_eq_single (g : String × FNode → Option String) (p₀ : String) :
    ∀ l : FS,
    (∀ e ∈ l, (e.1 = p₀ → g e = some p₀) ∧ (e.1 ≠ p₀ → g e = none)) →
    p₀ ∈ l.map Prod.fst → (l.map Prod.fst).Nodup →
    l.filterMap g = [p₀] := by
  intro l
  induction l with
  | nil =>
    intro _ hmem _
    simp at hmem
  | cons e es ih =>
    intro hg hmem hnd
    rw [List.map_cons] at hnd
    by_cases he : e.1 = p₀
    · have h1 : g e = some p₀ := (hg e (List.mem_cons_self _ _)).1 he
      have hno : p₀ ∉ es.map Prod.fst := by
        rw [← he]
        exact (List.nodup_cons.1 hnd).1
      have hnil : es.filterMap g = [] := by
        rw [List.filterMap_eq_nil_iff]
        intro x hx
        refine (hg x (List.mem_cons_of_mem _ hx)).2 ?_
        intro hxp
        exact hno (List.mem_map.2 ⟨x, hx, hxp⟩)
      rw [List.filterMap_cons, h1, hnil]
    · have h1 : g e = none := (hg e (List.mem_cons_self _ _)).2 he
      have hmem2 : p₀ ∈ es.map Prod.fst := by
        rcases List.mem_cons.1 (by rw [List.map_cons] at hmem; exact hmem) with h | h
        · exact absurd h.symm he
        · exact h
      rw [List.filterMap_cons, h1]
      exact ih (fun x hx => hg x (List.mem_cons_of_mem _ hx)) hmem2
        (List.nodup_cons.1 hnd).2

theorem C4_fold (fs0 : FS) (c : Bytes) (d p₀ : String) (r : FileRecord)
    (hrp : r.path = p₀) (hd : sha256Hexdigest c = d) :
    ∀ (rest : List String) (st : EngineState),
    rest.Nodup → p₀ ∉ rest →
    (∀ q ∈ rest, lookupFS fs0 q = some (FNode.file c)) →
    (∀ q ∈ rest, lookupFS st.fs q = some (FNode.file c)) →
    lookup_hash st.db d = some r →
    ∃ st1, rest.foldlM (step false fs0) st = .ok st1
      ∧ st1.db = st.db
      ∧ st1.total_savings = st.total_savings + rest.length * c.length
      ∧ (∀ q ∈ rest, lookupFS st1.fs q = some (FNode.link p₀))
      ∧ (∀ x, x ∉ rest → lookupFS st1.fs x = lookupFS st.fs x)
      ∧ (∀ e ∈ st1.fs, e.1 ∈ st.fs.map Prod.fst)
      ∧ ((st.fs.map Prod.fst).Nodup → (st1.fs.map Prod.fst).Nodup) := by
  intro rest
  induction rest with
  | nil =>
    intro st _ _ _ _ _
    exact ⟨st, rfl, rfl, by simp, by simp, fun x _ => rfl,
      fun e he => List.mem_map.2 ⟨e, he, rfl⟩, fun h => h⟩
  | cons q qs ih =>
    intro st hnd hp0 hfs0 hstfs hdb
    have hq0 : lookupFS fs0 q = some (FNode.file c) := hfs0 q (List.mem_cons_self _ _)
    have hqs : lookupFS st.fs q = some (FNode.file c) := hstfs q (List.mem_cons_self _ _)
    have hqnotqs : q ∉ qs := (List.nodup_cons.1 hnd).1
    have hqp : r.path ≠ q := by
      rw [hrp]
      intro h
      exact hp0 (by rw [h]; exact List.mem_cons_self _ _)
    have hdq : digestOf fs0 q = d := (digestOf_of_file hq0).trans hd
    have hstep : step false fs0 st q = .ok
        { st with
          total_savings := st.total_savings + c.length,
          fs := st.fs.filter (fun e => !(e.1 == q)) ++ [(q, .link r.path)],
          events := st.events ++
            [.printSymlinking q r.path c.length, .osRemove q,
             .osSymlink r.path q] } := by
      rw [step_of_file false st hq0, hdq]
      exact processOne_dup_live hdb hqp hqs
    obtain ⟨st1, hfold, hdb1, hsav1, hlinks1, hunproc1, hkeys1, hnodup1⟩ := ih
      { st with
        total_savings := st.total_savings + c.length,
        fs := st.fs.filter (fun e => !(e.1 == q)) ++ [(q, .link r.path)],
        events := st.events ++
          [.printSymlinking q r.path c.length, .osRemove q,
           .osSymlink r.path q] }
      (List.nodup_cons.1 hnd).2
      (fun h => hp0 (List.mem_cons_of_mem _ h))
      (fun x hx => hfs0 x (List.mem_cons_of_mem _ hx))
      (fun x hx =>
        (lookupFS_replace_ne st.fs (FNode.link r.path)
          (fun h => hqnotqs (by rwa [h] at hx))).trans
          (hstfs x (List.mem_cons_of_mem _ hx)))
      hdb
    refine ⟨st1, ?_, hdb1, ?_, ?_, ?_, ?_, ?_⟩
    · rw [List.foldlM_cons, hstep, except_bind_ok]
      exact hfold
    · rw [hsav1]
      show st.total_savings + c.length + qs.length * c.length =
        st.total_savings + (q :: qs).length * c.length
      rw [List.length_cons, Nat.succ_mul]
      omega
    · intro x hx
      rcases List.mem_cons.1 hx with rfl | hx'
      · rw [hunproc1 x hqnotqs]
        show lookupFS (st.fs.filter (fun e => !(e.1 == x)) ++ [(x, .link r.path)]) x =
          some (FNode.link p₀)
        rw [lookupFS_replace_self, hrp]
      · exact hlinks1 x hx'
    · intro x hx
      have hxq : x ≠ q := fun h => hx (by rw [h]; exact List.mem_cons_self _ _)
      have hxqs : x ∉ qs := fun h => hx (List.mem_cons_of_mem _ h)
      rw [hunproc1 x hxqs]
      exact lookupFS_replace_ne st.fs (FNode.link r.path) hxq
    · intro e he
      have h1 := hkeys1 e he
      rw [List.map_append] at h1
      rcases List.mem_append.1 h1 with h2 | h2
      · obtain ⟨x, hx, hxe⟩ := List.mem_map.1 h2
        exact List.mem_map.2 ⟨x, List.mem_of_mem_filter hx, hxe⟩
      · simp only [List.map_cons, List.map_nil, List.mem_singleton] at h2
        rw [h2]
        exact lookupFS_some_key_mem hqs
    · intro hnod
      apply hnodup1
      rw [List.map_append]
      refine List.Nodup.append ?_ (by simp) ?_
      · exact ((List.filter_sublist st.fs).map Prod.fst).nodup hnod
      · intro x hx hx2
        simp only [List.map_cons, List.map_nil, List.mem_singleton] at hx2
        obtain ⟨e2, he2, he2x⟩ := List.mem_map.1 hx
        have := (List.mem_filter.1 he2).2
        rw [he2x, hx2] at this
        simp at this

/-! ## The claims -/

/-- C1: for every discovered file path `p` with digest `d`, one commit-loop
iteration follows exactly the specified decision. If the index has no record
for `d`, the record `(p, d)` is inserted and the registration is reported; if
the existing record's path equals `p`, nothing is done; otherwise `p` is
treated as a duplicate: savings grow by `size(p)`, and in live mode the
duplicate is removed and replaced by a symbolic link to the canonical path,
while in dry-run only a report is made and nothing is mutated. -/
theorem C1_decision_policy (dry : Bool) (st : EngineState) (p d : String) (c : Bytes)
    (hp : lookupFS st.fs p = some (FNode.file c)) :
    (lookup_hash st.db d = none →
      processOne dry st (p, d) = .ok
        { st with
          db := st.db ++ [⟨st.db.length + 1, basename p, p, d⟩],
          events := st.events ++ [.printAdded p d] })
    ∧ (∀ r, lookup_hash st.db d = some r → r.path = p →
        processOne dry st (p, d) = .ok st)
    ∧ (∀ r, lookup_hash st.db d = some r → r.path ≠ p →
        (processOne true st (p, d) = .ok
          { st with
            total_savings := st.total_savings + c.length,
            events := st.events ++ [.printCouldLink p r.path c.length] })
        ∧ (processOne false st (p, d) = .ok
          { st with
            total_savings := st.total_savings + c.length,
            fs := st.fs.filter (fun e => !(e.1 == p)) ++ [(p, .link r.path)],
            events := st.events ++
              [.printSymlinking p r.path c.length, .osRemove p,
               .osSymlink r.path p] })) :=
  ⟨fun hl => processOne_new dry hl,
   fun _ hl hrp => processOne_same dry hl hrp,
   fun _ hl hrp => ⟨processOne_dup_dry hl hrp hp, processOne_dup_live hl hrp hp⟩⟩

theorem C1_witness :
    processOne false
      { db := [⟨1, "a", "a", "h1"⟩],
        fs := [("a", FNode.file [1]), ("b", FNode.file [2, 3])],
        total_savings := 0, events := [] } ("b", "h1") = .ok
      { db := [⟨1, "a", "a", "h1"⟩],
        fs := [("a", FNode.file [1]), ("b", FNode.link "a")],
        total_savings := 2,
        events := [.printSymlinking "b" "a" 2, .osRemove "b", .osSymlink "a" "b"] } := by
  have h := ((C1_decision_policy false
    { db := [⟨1, "a", "a", "h1"⟩],
      fs := [("a", FNode.file [1]), ("b", FNode.file [2, 3])],
      total_savings := 0, events := [] } "b" "h1" [2, 3] (by decide)).2.2
    ⟨1, "a", "a", "h1"⟩ (by decide) (by decide)).2
  exact h.trans (congrArg Except.ok (by decide))

/-- C2: the persisted index keeps at most one record per digest. Inserting a
digest that already has a record fails with the constraint error and stores
nothing; a successful insert preserves digest uniqueness; and every
commit-loop operation on the store preserves digest uniqueness. -/
theorem C2_digest_uniqueness (db : DB) (p h : String) :
    ((∃ r ∈ db, r.sha256 = h) →
      save_hash db p h = .error "IntegrityError: UNIQUE constraint failed: files.sha256")
    ∧ (∀ db2, save_hash db p h = .ok db2 → UniqueDigests db → UniqueDigests db2)
    ∧ (∀ (dry : Bool) (st st1 : EngineState) (r : String × String), st.db = db →
        UniqueDigests db → processOne dry st r = .ok st1 → UniqueDigests st1.db) := by
  refine ⟨?_, ?_, ?_⟩
  · rintro ⟨r, hr, hs⟩
    exact save_hash_error_of_mem hr hs
  · intro db2 hs hu
    have hfresh : ∀ r ∈ db, r.sha256 ≠ h := by
      intro r hr he
      rw [save_hash_error_of_mem hr he] at hs
      exact Except.noConfusion hs
    rw [save_hash_ok_inv hs]
    exact uniqueDigests_append_fresh hu hfresh
  · intro dry st st1 r hdb hu hok
    rcases processOne_db_cases hok with h1 | h1
    · rw [h1, hdb]
      exact hu
    · rw [h1.2, hdb]
      exact uniqueDigests_append_fresh (hdb ▸ hu)
        (fun x hx => (lookup_hash_eq_none_iff.1 (hdb ▸ h1.1)) x (hdb ▸ hx))

theorem C2_witness :
    save_hash [⟨1, "a", "a", "h1"⟩] "b" "h1" =
      .error "IntegrityError: UNIQUE constraint failed: files.sha256" :=
  (C2_digest_uniqueness [⟨1, "a", "a", "h1"⟩] "b" "h1").1
    ⟨⟨1, "a", "a", "h1"⟩, by decide, rfl⟩

/-- C9: the content hasher is deterministic — the digest is a function of the
file bytes alone — and equals the hex rendering of the SHA-256 value of the
whole content even though the file is streamed in 4096-byte chunks; the
digest is a 64-character string over the hexadecimal alphabet, and the
underlying SHA-256 value fits in 256 bits. -/
theorem C9_content_hasher (file_path : String) (content : Bytes) :
    calculate_file_hash file_path content = (file_path, hexdigest64 (sha256Nat content))
    ∧ ((calculate_file_hash file_path content).2).length = 64
    ∧ (∀ ch ∈ ((calculate_file_hash file_path content).2).data, ch ∈ hexAlphabet)
    ∧ sha256Nat content < 2 ^ 256
    ∧ (∀ other_path : String,
        (calculate_file_hash file_path content).2 =
          (calculate_file_hash other_path content).2) := by
  refine ⟨calculate_file_hash_eq file_path content, ?_, ?_, sha256Nat_lt content, ?_⟩
  · rw [calculate_file_hash_eq]
    exact hexdigest64_length _
  · rw [calculate_file_hash_eq]
    exact hexdigest64_mem_hexAlphabet _
  · intro other_path
    rw [calculate_file_hash_eq, calculate_file_hash_eq]

set_option maxRecDepth 8192 in
theorem C9_witness :
    ((calculate_file_hash "f" [1]).2).length = 64 ∧ ('4' : Char) ∈ hexAlphabet :=
  ⟨(C9_content_hasher "f" [1]).2.1,
   (C9_content_hasher "f" [1]).2.2.1 '4' (by decide)⟩

/-- C10: extension matching uses only the final suffix split off by
`os.path.splitext`. A dotfile named exactly ".bin" has an empty extension and
is never enumerated when the empty extension is not requested; "x.bin.txt"
has extension ".txt", not ".bin"; "x.tar.bin" has extension ".bin". -/
theorem C10_splitext_suffix :
    (splitext ".bin").2 = ""
    ∧ (∀ (fs : FS) (exts : List String), "" ∉ exts →
        ".bin" ∉ traverse_directory fs exts)
    ∧ (splitext "x.bin.txt").2 = ".txt"
    ∧ (splitext "x.bin.txt").2 ≠ ".bin"
    ∧ (splitext "x.tar.bin").2 = ".bin" := by
  refine ⟨by decide, ?_, by decide, by decide, by decide⟩
  intro fs exts hne hmem
  obtain ⟨e, he, hep, h1, _, _⟩ := mem_traverse_iff.1 hmem
  rw [show (splitext ".bin").2 = "" from by decide] at h1
  exact hne h1

theorem C10_witness :
    ".bin" ∉ traverse_directory [(".bin", FNode.file [1])] [".bin"] :=
  C10_splitext_suffix.2.1 [(".bin", FNode.file [1])] [".bin"] (by decide)

/-- C7: every path produced by the directory scanner satisfies all three
filters — its `splitext` extension is an exact, case-sensitive member of the
requested set, it is not a symbolic link, and its size is strictly positive —
and conversely symbolic links and zero-byte files are never enumerated, and
every record a run inserts into the index is for an enumerated path, so such
files are never hashed or registered. -/
theorem C7_scanner_filters (fs : FS) (exts : List String) :
    (∀ p ∈ traverse_directory fs exts,
      (splitext p).2 ∈ exts ∧ islink fs p = false ∧ getsize fs p > 0)
    ∧ (∀ e ∈ fs, (islink fs e.1 = true ∨ getsize fs e.1 = 0) →
        e.1 ∉ traverse_directory fs exts)
    ∧ (∀ (dry : Bool) (db0 : DB) (order : List String) (st : EngineState),
        order.Perm (traverse_directory fs exts) →
        process_files dry fs db0 order = .ok st →
        ∀ r ∈ st.db, r ∈ db0 ∨
          ((splitext r.path).2 ∈ exts ∧ islink fs r.path = false ∧
            getsize fs r.path > 0)) := by
  have hchar : ∀ p ∈ traverse_directory fs exts,
      (splitext p).2 ∈ exts ∧ islink fs p = false ∧ getsize fs p > 0 := by
    intro p hp
    obtain ⟨e, _, _, h1, h2, h3⟩ := mem_traverse_iff.1 hp
    exact ⟨h1, h2, Nat.pos_of_ne_zero h3⟩
  refine ⟨hchar, ?_, ?_⟩
  · intro e he hcond hmem
    obtain ⟨_, h2, h3⟩ := hchar e.1 hmem
    rcases hcond with h | h
    · rw [h2] at h
      exact Bool.noConfusion h
    · rw [h] at h3
      exact Nat.lt_irrefl 0 h3
  · intro dry db0 order st hperm hok r hr
    rcases foldlM_db_paths dry fs order _ st hok r hr with h | h
    · exact Or.inl h
    · exact Or.inr (hchar r.path (hperm.subset h))

theorem C7_witness :
    ("L.bin" ∉ traverse_directory
      [("a.bin", FNode.file [1]), ("L.bin", FNode.link "a.bin"),
       ("e.bin", FNode.file [])] [".bin"])
    ∧ ("e.bin" ∉ traverse_directory
      [("a.bin", FNode.file [1]), ("L.bin", FNode.link "a.bin"),
       ("e.bin", FNode.file [])] [".bin"]) :=
  ⟨(C7_scanner_filters
      [("a.bin", FNode.file [1]), ("L.bin", FNode.link "a.bin"),
       ("e.bin", FNode.file [])] [".bin"]).2.1
      ("L.bin", FNode.link "a.bin") (by decide) (Or.inl (by decide)),
   (C7_scanner_filters
      [("a.bin", FNode.file [1]), ("L.bin", FNode.link "a.bin"),
       ("e.bin", FNode.file [])] [".bin"]).2.1
      ("e.bin", FNode.file []) (by decide) (Or.inr (by decide))⟩

/-- C3: over the same inputs and the same completion order, a dry-run pass
produces exactly the same final index contents as a live pass (records are
still inserted in dry-run), while the dry-run pass leaves the filesystem
untouched and performs no removal and no symbolic-link creation. -/
theorem C3_dry_run_equivalence (fs : FS) (exts : List String) (db0 : DB)
    (order : List String)
    (hperm : order.Perm (traverse_directory fs exts))
    (hnd : (fs.map Prod.fst).Nodup) :
    ∃ stD stL, process_files true fs db0 order = .ok stD
      ∧ process_files false fs db0 order = .ok stL
      ∧ stD.db = stL.db
      ∧ stD.fs = fs
      ∧ stD.events.all (fun e => !(isFsOp e)) = true := by
  have hndo : order.Nodup := hperm.nodup_iff.2 (traverse_nodup exts hnd)
  have hreg : ∀ p ∈ order, ∃ c, lookupFS fs p = some (FNode.file c) :=
    fun p hp => lookupFS_file_of_traverse (hperm.subset hp)
  obtain ⟨stD, hD, hdbD, hdryD⟩ :=
    run_aux true fs order { db := db0, fs := fs, total_savings := 0, events := [] }
      hndo hreg (fun p _ => rfl)
  obtain ⟨stL, hL, hdbL, _⟩ :=
    run_aux false fs order { db := db0, fs := fs, total_savings := 0, events := [] }
      hndo hreg (fun p _ => rfl)
  refine ⟨stD, stL, hD, hL, hdbD.trans hdbL.symm, (hdryD rfl).1, ?_⟩
  have h := (hdryD rfl).2
  simpa using h

theorem C3_witness :
    ∃ stD stL,
      process_files true [("a.bin", FNode.file [1]), ("b.bin", FNode.file [1])] []
        (traverse_directory [("a.bin", FNode.file [1]), ("b.bin", FNode.file [1])]
          [".bin"]) = .ok stD
      ∧ process_files false [("a.bin", FNode.file [1]), ("b.bin", FNode.file [1])] []
        (traverse_directory [("a.bin", FNode.file [1]), ("b.bin", FNode.file [1])]
          [".bin"]) = .ok stL
      ∧ stD.db = stL.db
      ∧ stD.fs = [("a.bin", FNode.file [1]), ("b.bin", FNode.file [1])]
      ∧ stD.events.all (fun e => !(isFsOp e)) = true :=
  C3_dry_run_equivalence [("a.bin", FNode.file [1]), ("b.bin", FNode.file [1])]
    [".bin"] [] _ (List.Perm.refl _) (by decide)

/-- C8: hashing may deliver results in any completion order, but the commit
phase is a single serialized fold, so for any two distinct files in the run
whose contents hash to the same digest that the index does not yet hold,
exactly one record with that digest is persisted, and digest uniqueness of
the store is preserved. -/
theorem C8_single_writer_commit (dry : Bool) (fs : FS) (db0 : DB)
    (order : List String) (p q : String)
    (hnd : order.Nodup)
    (hreg : ∀ x ∈ order, ∃ b, lookupFS fs x = some (FNode.file b))
    (hp : p ∈ order) (hq : q ∈ order) (hpq : p ≠ q)
    (hsame : digestOf fs p = digestOf fs q)
    (hfresh : lookup_hash db0 (digestOf fs p) = none)
    (hu : UniqueDigests db0) :
    ∃ st, process_files dry fs db0 order = .ok st
      ∧ countDigest st.db (digestOf fs p) = 1
      ∧ UniqueDigests st.db := by
  obtain ⟨st, hok, hdb, _⟩ :=
    run_aux dry fs order { db := db0, fs := fs, total_savings := 0, events := [] }
      hnd hreg (fun x _ => rfl)
  have huf : UniqueDigests st.db := by
    rw [hdb]
    exact uniqueDigests_foldl fs order db0 hu
  refine ⟨st, hok, ?_, huf⟩
  have hle : countDigest st.db (digestOf fs p) ≤ 1 :=
    countDigest_le_one_of_unique _ huf
  obtain ⟨s, t, hst⟩ := List.append_of_mem hp
  have hge : 1 ≤ countDigest st.db (digestOf fs p) := by
    rw [hdb, hst, List.foldl_append, List.foldl_cons]
    exact Nat.le_trans (one_le_countDigest_dbStep fs _ p)
      (countDigest_foldl_le fs t _ _)
  omega

theorem C8_witness :
    ∃ st,
      process_files false [("a.bin", FNode.file [1]), ("b.bin", FNode.file [1])] []
        ["a.bin", "b.bin"] = .ok st
      ∧ countDigest st.db
          (digestOf [("a.bin", FNode.file [1]), ("b.bin", FNode.file [1])] "a.bin") = 1
      ∧ UniqueDigests st.db := by
  refine C8_single_writer_commit false
    [("a.bin", FNode.file [1]), ("b.bin", FNode.file [1])] [] ["a.bin", "b.bin"]
    "a.bin" "b.bin" (by decide) ?_ (by decide) (by decide) (by decide) ?_ rfl
    List.Pairwise.nil
  · intro x hx
    rcases List.mem_cons.1 hx with h | h
    · exact ⟨[1], by rw [h]; decide⟩
    · rcases List.mem_cons.1 h with h2 | h2
      · exact ⟨[1], by rw [h2]; decide⟩
      · exact absurd h2 (List.not_mem_nil x)
  · rfl

/-- C4: a live run over a tree of identical-content files (all regular, same
nonempty content, matching extensions, digest not yet indexed) inserts exactly
one record; the first-committed path survives as a regular file and every
other path becomes a symbolic link to it; re-running the engine on the
resulting tree enumerates only the canonical file and returns with the index
unchanged, zero savings and no events — zero new records, zero new links. -/
theorem C4_live_idempotence (fs0 : FS) (exts : List String) (db0 : DB) (c : Bytes)
    (p₀ : String) (rest : List String)
    (hc : c ≠ [])
    (hall : ∀ e ∈ fs0, e.2 = FNode.file c)
    (hext : ∀ e ∈ fs0, (splitext e.1).2 ∈ exts)
    (hnd : (fs0.map Prod.fst).Nodup)
    (hperm : (p₀ :: rest).Perm (traverse_directory fs0 exts))
    (hfresh : lookup_hash db0 (sha256Hexdigest c) = none) :
    ∃ st, process_files false fs0 db0 (p₀ :: rest) = .ok st
      ∧ st.db = db0 ++ [⟨db0.length + 1, basename p₀, p₀, sha256Hexdigest c⟩]
      ∧ lookupFS st.fs p₀ = some (FNode.file c)
      ∧ (∀ q ∈ rest, lookupFS st.fs q = some (FNode.link p₀))
      ∧ (∀ e ∈ st.fs, e.1 = p₀ ∨ e.1 ∈ rest)
      ∧ st.total_savings = rest.length * c.length
      ∧ traverse_directory st.fs exts = [p₀]
      ∧ process_files false st.fs st.db [p₀] =
          .ok { db := st.db, fs := st.fs, total_savings := 0, events := [] } := by
  have htrav : traverse_directory fs0 exts = fs0.map Prod.fst :=
    traverse_all_same hc hall hext
  have hpermk : (p₀ :: rest).Perm (fs0.map Prod.fst) := htrav ▸ hperm
  have hndo : (p₀ :: rest).Nodup := hpermk.nodup_iff.2 hnd
  have hp0rest : p₀ ∉ rest := (List.nodup_cons.1 hndo).1
  have hrestnd : rest.Nodup := (List.nodup_cons.1 hndo).2
  have hmemkeys : ∀ x ∈ p₀ :: rest, x ∈ fs0.map Prod.fst := fun x hx => hpermk.subset hx
  have hp0f : lookupFS fs0 p₀ = some (FNode.file c) :=
    lookupFS_all_file hall (hmemkeys p₀ (List.mem_cons_self _ _))
  have hrestf : ∀ q ∈ rest, lookupFS fs0 q = some (FNode.file c) :=
    fun q hq => lookupFS_all_file hall (hmemkeys q (List.mem_cons_of_mem _ hq))
  have hd0 : digestOf fs0 p₀ = sha256Hexdigest c := digestOf_of_file hp0f
  have hstep0 : step false fs0
      { db := db0, fs := fs0, total_savings := 0, events := [] } p₀ =
      .ok { db := db0 ++ [⟨db0.length + 1, basename p₀, p₀, sha256Hexdigest c⟩],
            fs := fs0, total_savings := 0,
            events := [.printAdded p₀ (sha256Hexdigest c)] } := by
    rw [step_of_file false _ hp0f, hd0]
    exact processOne_new false hfresh
  have hlook : lookup_hash
      (db0 ++ [⟨db0.length + 1, basename p₀, p₀, sha256Hexdigest c⟩])
      (sha256Hexdigest c) =
      some ⟨db0.length + 1, basename p₀, p₀, sha256Hexdigest c⟩ := by
    rw [lookup_hash_append_of_none _ hfresh]
    simp [lookup_hash, List.find?]
  obtain ⟨st, hfold, hdb1, hsav1, hlinks1, hunproc1, hkeys1, hnodup1⟩ :=
    C4_fold fs0 c (sha256Hexdigest c) p₀
      ⟨db0.length + 1, basename p₀, p₀, sha256Hexdigest c⟩ rfl rfl rest
      { db := db0 ++ [⟨db0.length + 1, basename p₀, p₀, sha256Hexdigest c⟩],
        fs := fs0, total_savings := 0,
        events := [.printAdded p₀ (sha256Hexdigest c)] }
      hrestnd hp0rest hrestf (fun q hq => hrestf q hq) hlook
  have hp0st : lookupFS st.fs p₀ = some (FNode.file c) := by
    rw [hunproc1 p₀ hp0rest]
    exact hp0f
  have hrun1 : process_files false fs0 db0 (p₀ :: rest) = .ok st := by
    unfold process_files
    rw [List.foldlM_cons, hstep0, except_bind_ok]
    exact hfold
  have hkeys : ∀ e ∈ st.fs, e.1 = p₀ ∨ e.1 ∈ rest := by
    intro e he
    exact List.mem_cons.1 (hpermk.mem_iff.2 (hkeys1 e he))
  have hndst : (st.fs.map Prod.fst).Nodup := hnodup1 hnd
  have hp0ext : (splitext p₀).2 ∈ exts := by
    obtain ⟨e, he, hee⟩ := List.mem_map.1 (hmemkeys p₀ (List.mem_cons_self _ _))
    rw [← hee]
    exact hext e he
  have hsize0 : getsize st.fs p₀ ≠ 0 := by
    rw [getsize_of_file hp0st]
    exact fun h => hc (List.length_eq_zero.1 h)
  have htrav2 : traverse_directory st.fs exts = [p₀] := by
    unfold traverse_directory
    refine filterMap_eq_single _ p₀ st.fs ?_ (lookupFS_some_key_mem hp0st) hndst
    intro e he
    constructor
    · intro hep
      rw [hep, if_pos hp0ext, if_pos (And.intro (islink_of_file hp0st) hsize0)]
    · intro hep
      rcases hkeys e he with h | h
      · exact absurd h hep
      · have hlnk := islink_of_link (hlinks1 e.1 h)
        by_cases hx : (splitext e.1).2 ∈ exts
        · rw [if_pos hx, if_neg]
          intro hcond
          rw [hlnk] at hcond
          exact Bool.noConfusion hcond.1
        · rw [if_neg hx]
  have hd2 : digestOf st.fs p₀ = sha256Hexdigest c := digestOf_of_file hp0st
  have hlook2 : lookup_hash st.db (sha256Hexdigest c) =
      some ⟨db0.length + 1, basename p₀, p₀, sha256Hexdigest c⟩ := by
    rw [show st.db = db0 ++ [⟨db0.length + 1, basename p₀, p₀, sha256Hexdigest c⟩]
      from hdb1]
    exact hlook
  have hrun2 : process_files false st.fs st.db [p₀] =
      .ok { db := st.db, fs := st.fs, total_savings := 0, events := [] } := by
    unfold process_files
    rw [List.foldlM_cons,
      step_of_file false { db := st.db, fs := st.fs, total_savings := 0, events := [] }
        hp0st, hd2,
      @processOne_same { db := st.db, fs := st.fs, total_savings := 0, events := [] }
        p₀ (sha256Hexdigest c)
        ⟨db0.length + 1, basename p₀, p₀, sha256Hexdigest c⟩ false hlook2 rfl,
      except_bind_ok, List.foldlM_nil]
    rfl
  refine ⟨st, hrun1, hdb1, hp0st, hlinks1, hkeys, ?_, htrav2, hrun2⟩
  rw [hsav1]
  simp

theorem C4_witness :
    ∃ st,
      process_files false [("a.bin", FNode.file [1]), ("b.bin", FNode.file [1])] []
        ["a.bin", "b.bin"] = .ok st
      ∧ st.db = [] ++ [⟨List.length ([] : DB) + 1, basename "a.bin", "a.bin",
          sha256Hexdigest [1]⟩]
      ∧ lookupFS st.fs "a.bin" = some (FNode.file [1])
      ∧ (∀ q ∈ ["b.bin"], lookupFS st.fs q = some (FNode.link "a.bin"))
      ∧ (∀ e ∈ st.fs, e.1 = "a.bin" ∨ e.1 ∈ ["b.bin"])
      ∧ st.total_savings = ["b.bin"].length * List.length [1]
      ∧ traverse_directory st.fs [".bin"] = ["a.bin"]
      ∧ process_files false st.fs st.db ["a.bin"] =
          .ok { db := st.db, fs := st.fs, total_savings := 0, events := [] } :=
  C4_live_idempotence [("a.bin", FNode.file [1]), ("b.bin", FNode.file [1])]
    [".bin"] [] [1] "a.bin" ["b.bin"] (by decide) (by decide) (by decide)
    (by decide) (by decide) rfl

/-- C5 (code-bug exhibit): the replace-with-link path performs no
verification that the duplicate still exists before acting, and a failure in
the commit sequence is not caught anywhere: after the duplicate decision for
"dupe.bin" (whose file has vanished externally), the raised OSError
propagates out of the loop and the run aborts — "other.bin" is never
processed, no distinct degraded-state report is produced, and the run does
not continue with the remaining files. -/
theorem C5_link_failure_aborts_run :
    ([("dupe.bin", "h1"), ("other.bin", "h5")].foldlM (processOne false)
      { db := [⟨1, "canon.bin", "canon.bin", "h1"⟩],
        fs := [("canon.bin", FNode.file [1]), ("other.bin", FNode.file [5, 6])],
        total_savings := 0, events := [] })
      = .error "OSError: getsize dupe.bin" := rfl

set_option maxRecDepth 8192 in
/-- C6 (code-bug exhibit): "b.bin" is enumerated while present but vanishes
before hashing; the IOError stored in its future is re-raised by
`future.result()` with no handler, so the whole run aborts with the error —
"c.bin" is never processed and no per-file skip happens. -/
theorem C6_hash_failure_aborts_run :
    traverse_directory
      [("a.bin", FNode.file [1]), ("b.bin", FNode.file [2]), ("c.bin", FNode.file [3])]
      [".bin"] = ["a.bin", "b.bin", "c.bin"]
    ∧ process_files false
        [("a.bin", FNode.file [1]), ("c.bin", FNode.file [3])]
        [] ["a.bin", "b.bin", "c.bin"] = .error "IOError: open b.bin" := by
  exact ⟨by decide, rfl⟩

end DupeLinker
